import Mathlib

/-!
Verification development for the `eaa_pipeline_opec` ETL job (`src/main.py`).

The embedding models, at the level the claims require:
  * `json.loads` on NDJSON lines (subset: objects, arrays, strings with the
    simple escapes, integers, booleans, null; floats and \u escapes are not
    modelled — no claim depends on them);
  * Python `str.strip()` / `str.split("\n")` / string truthiness;
  * `fetch_activities`, including its non-200 `ValueError` payload and the
    `json.JSONDecodeError` (a `ValueError` whose single argument is a plain
    message string) raised on a malformed line;
  * the pandas fragment used by `transform`: `pd.DataFrame(records)`,
    `pd.to_datetime(..., errors="coerce")`, `pd.json_normalize`, column
    rename, `drop(columns=[...])` and `pd.concat(..., axis=1)`;
  * `load_to_bigquery` over an oracle for the BigQuery client;
  * the handler `adsim_activity_etl` with its 90-day / 1-day batch loop,
    instrumented with the list of windows actually fetched.

Machine integers do not occur (Python ints are unbounded); instants are
modelled as `Int` microseconds since the epoch, matching `datetime` +
`timedelta` arithmetic.
-/

/-!
JSON values as produced by `json.loads`, extended with `ts` for the
pandas `Timestamp` values that `pd.to_datetime` writes into cells.
Object fields (`JObj`) are kept in insertion order, as Python dicts do;
`JArr`/`JObj` are their own inductives (mutually with `JVal`) rather than
`List`s so that recursion over values stays structural. -/

mutual

inductive JVal where
  | null : JVal
  | b : Bool → JVal
  | i : Int → JVal
  | s : String → JVal
  | arr : JArr → JVal
  | obj : JObj → JVal
  | ts : Int → JVal
deriving DecidableEq

inductive JArr where
  | nil : JArr
  | cons : JVal → JArr → JArr
deriving DecidableEq

inductive JObj where
  | nil : JObj
  | cons : String → JVal → JObj → JObj
deriving DecidableEq

end

/-- The keys of a JSON object, in order. -/
def jobjKeys : JObj → List String
  | JObj.nil => []
  | JObj.cons k _ rest => k :: jobjKeys rest

/-- Python dict lookup (keys in a parsed object are unique). -/
def jobjLookup (k : String) : JObj → Option JVal
  | JObj.nil => none
  | JObj.cons k2 v rest => if k2 == k then some v else jobjLookup k rest

def jobjEraseAll (k : String) : JObj → JObj
  | JObj.nil => JObj.nil
  | JObj.cons k2 v rest =>
    if k2 == k then jobjEraseAll k rest else JObj.cons k2 v (jobjEraseAll k rest)

/-- Convenience constructor: a `JObj` from a list of fields. -/
def recOf : List (String × JVal) → JObj
  | [] => JObj.nil
  | (k, v) :: rest => JObj.cons k v (recOf rest)

/-- The whitespace characters shared by `str.strip()` and the JSON grammar.
(`str.strip()` also removes `\x0b`, `\x0c` and other Unicode whitespace;
those characters cannot occur around a line that `json.loads` accepts, and
no claim exercises them, so the model uses the common four-character class.) -/
def isWs (c : Char) : Bool :=
  c = ' ' || c = '\t' || c = '\n' || c = '\r'

/-- Leading-whitespace removal (the left half of Python `str.strip()`). -/
def lstrip (cs : List Char) : List Char := cs.dropWhile isWs

/-- Trailing-whitespace removal (the right half of Python `str.strip()`). -/
def rstrip (cs : List Char) : List Char :=
  (cs.reverse.dropWhile isWs).reverse

/-- Python `str.strip()` on the character list of the string. -/
def pyStrip (cs : List Char) : List Char := rstrip (lstrip cs)

/-- Python `str.split("\n")`: split at every newline, keeping empty pieces;
the empty string yields `[[]]`, as in Python. -/
def pyLines : List Char → List (List Char)
  | [] => [[]]
  | c :: rest =>
    if c = '\n' then [] :: pyLines rest
    else
      match pyLines rest with
      | [] => [[c]]
      | l :: ls => (c :: l) :: ls

/-- `List.dropWhile` over an append. -/
theorem dropWhile_append_eq (p : Char → Bool) (a b : List Char) :
    (a ++ b).dropWhile p =
      if a.all p then b.dropWhile p else a.dropWhile p ++ b := by
  induction a with
  | nil => simp
  | cons c a ih =>
    by_cases h : p c
    · simp [List.dropWhile_cons, h, ih]
    · simp [List.dropWhile_cons, h]

/-- A list of whitespace loses everything to `lstrip`. -/
theorem lstrip_of_all {cs : List Char} (h : cs.all isWs) : lstrip cs = [] := by
  unfold lstrip
  exact List.dropWhile_eq_nil_iff.mpr (by intro x hx; exact (List.all_eq_true.mp h) x hx)

/-- A list of whitespace loses everything to `rstrip`. -/
theorem rstrip_of_all {cs : List Char} (h : cs.all isWs) : rstrip cs = [] := by
  unfold rstrip
  have hrev : cs.reverse.all isWs := by simpa using h
  rw [List.dropWhile_eq_nil_iff.mpr (by intro x hx; exact (List.all_eq_true.mp hrev) x hx)]
  rfl

/-- Recursion equation for `rstrip` on a cons cell. -/
theorem rstrip_cons (c : Char) (cs : List Char) :
    rstrip (c :: cs) =
      if isWs c ∧ cs.all isWs then [] else c :: rstrip cs := by
  by_cases h : isWs c ∧ cs.all isWs
  · rw [if_pos h]
    exact rstrip_of_all (by simp [List.all_cons, h.1, h.2])
  · rw [if_neg h]
    unfold rstrip
    rw [List.reverse_cons, dropWhile_append_eq]
    by_cases hall : cs.reverse.all isWs
    · have hcs : cs.all isWs := by simpa using hall
      have hc : ¬ isWs c = true := fun hc => h ⟨hc, hcs⟩
      have hnil : cs.reverse.dropWhile isWs = [] :=
        List.dropWhile_eq_nil_iff.mpr (by intro x hx; exact (List.all_eq_true.mp hall) x hx)
      rw [if_pos hall]
      simp [List.dropWhile_cons, hc, hnil]
    · rw [if_neg hall]
      simp

/-- `rstrip` over an append. -/
theorem rstrip_append (a b : List Char) :
    rstrip (a ++ b) = if b.all isWs then rstrip a else a ++ rstrip b := by
  unfold rstrip
  rw [List.reverse_append, dropWhile_append_eq]
  by_cases h : b.all isWs
  · have : b.reverse.all isWs := by simpa using h
    simp [this, h]
  · have : ¬ b.reverse.all isWs := by simpa using h
    simp [this, h]

theorem lstrip_idem (cs : List Char) : lstrip (lstrip cs) = lstrip cs := by
  unfold lstrip
  induction cs with
  | nil => simp
  | cons c cs ih =>
    by_cases h : isWs c
    · simpa [List.dropWhile_cons, h] using ih
    · simp [List.dropWhile_cons, h]

/-- `rstrip` only removes characters from the end, so a residue of pure
whitespace means the whole list was whitespace. -/
theorem all_of_rstrip_all : ∀ cs : List Char, (rstrip cs).all isWs → cs.all isWs := by
  intro cs
  induction cs with
  | nil => simp
  | cons c cs ih =>
    rw [rstrip_cons]
    by_cases h : isWs c ∧ cs.all isWs
    · rw [if_pos h]
      intro _
      simp [List.all_cons, h.1, h.2]
    · rw [if_neg h]
      intro hall
      rw [List.all_cons] at hall ⊢
      rcases Bool.and_eq_true_iff.mp hall with ⟨h1, h2⟩
      exact Bool.and_eq_true_iff.mpr ⟨h1, ih h2⟩

theorem rstrip_idem (cs : List Char) : rstrip (rstrip cs) = rstrip cs := by
  induction cs with
  | nil => simp [rstrip]
  | cons c cs ih =>
    rw [rstrip_cons]
    by_cases h : isWs c ∧ cs.all isWs
    · rw [if_pos h]
      simp [rstrip]
    · rw [if_neg h, rstrip_cons, ih,
        if_neg (fun hh => h ⟨hh.1, all_of_rstrip_all cs hh.2⟩)]

theorem lstrip_rstrip_comm (cs : List Char) :
    lstrip (rstrip cs) = rstrip (lstrip cs) := by
  induction cs with
  | nil => simp [lstrip, rstrip]
  | cons c cs ih =>
    by_cases h : isWs c ∧ cs.all isWs
    · have hall : (c :: cs).all isWs := by simp [List.all_cons, h.1, h.2]
      rw [rstrip_of_all hall, lstrip_of_all hall]
      simp [lstrip, rstrip]
    · rw [rstrip_cons, if_neg h]
      by_cases hc : isWs c
      · have h1 : lstrip (c :: rstrip cs) = lstrip (rstrip cs) := by
          simp [lstrip, List.dropWhile_cons, hc]
        have h2 : lstrip (c :: cs) = lstrip cs := by
          simp [lstrip, List.dropWhile_cons, hc]
        rw [h1, h2, ih]
      · have h1 : lstrip (c :: rstrip cs) = c :: rstrip cs := by
          simp [lstrip, List.dropWhile_cons, hc]
        have h2 : lstrip (c :: cs) = c :: cs := by
          simp [lstrip, List.dropWhile_cons, hc]
        rw [h1, h2, rstrip_cons, if_neg h]

/-! ### A model of `json.loads`

Recursive-descent scanner over a character list, mirroring Python's `json`
module on the subset the pipeline's claims exercise: objects (duplicate keys
keep the first position and the last value, as Python dicts do), arrays,
strings with the single-character escapes (raw control characters and
`\u` escapes rejected), integers (leading zeros rejected), `true`, `false`,
`null`.  Float literals and `NaN`/`Infinity` are outside the modelled
subset.  `json.loads` ignores whitespace around the document, which the
model realises by stripping before scanning. -/

def skipW (cs : List Char) : List Char := cs.dropWhile isWs

/-- The escape characters accepted after a backslash in a JSON string. -/
def escChar : Char → Option Char
  | '"' => some '"'
  | '\\' => some '\\'
  | '/' => some '/'
  | 'b' => some '\x08'
  | 'f' => some '\x0c'
  | 'n' => some '\n'
  | 'r' => some '\r'
  | 't' => some '\t'
  | _ => none

/-- Scan the remainder of a JSON string literal (the opening quote already
consumed); returns the decoded content and the input after the closing
quote. -/
def parseStrAux : List Char → Option (List Char × List Char)
  | [] => none
  | c :: rest =>
    if c = '"' then some ([], rest)
    else if c = '\\' then
      match rest with
      | [] => none
      | e :: rest2 =>
        match escChar e with
        | none => none
        | some ec =>
          match parseStrAux rest2 with
          | none => none
          | some (s, r) => some (ec :: s, r)
    else if c.toNat < 32 then none
    else
      match parseStrAux rest with
      | none => none
      | some (s, r) => some (c :: s, r)

def digitsToNat (ds : List Char) : Nat :=
  ds.foldl (fun a c => a * 10 + (c.toNat - 48)) 0

/-- Scan a JSON integer literal. -/
def parseNum (cs : List Char) : Option (JVal × List Char) :=
  let p := match cs with
    | '-' :: r => (true, r)
    | _ => (false, cs)
  match (p.2.span Char.isDigit : List Char × List Char) with
  | (ds, rest) =>
    if ds = [] then none
    else if 1 < ds.length ∧ ds.head? = some '0' then none
    else
      match rest with
      | '.' :: _ => none
      | 'e' :: _ => none
      | 'E' :: _ => none
      | _ => some (JVal.i (if p.1 then -(digitsToNat ds : Int) else (digitsToNat ds : Int)), rest)

/-- Insert a parsed object member in front of the members parsed after it:
the key keeps its first position while a duplicate later in the object
supplies the value, exactly as repeated keys behave in a Python dict. -/
def objInsert (k : String) (v : JVal) (kvs : JObj) : JObj :=
  match jobjLookup k kvs with
  | some w => JObj.cons k w (jobjEraseAll k kvs)
  | none => JObj.cons k v kvs

mutual

def parseVal : Nat → List Char → Option (JVal × List Char)
  | 0, _ => none
  | f + 1, cs =>
    match skipW cs with
    | [] => none
    | c :: rest =>
      if c = '\x7b' then parseObjBody f (skipW rest)
      else if c = '[' then parseArrBody f (skipW rest)
      else if c = '"' then
        match parseStrAux rest with
        | none => none
        | some (s, r) => some (JVal.s (String.mk s), r)
      else if c = 't' then
        if rest.take 3 = ['r', 'u', 'e'] then some (JVal.b true, rest.drop 3) else none
      else if c = 'f' then
        if rest.take 4 = ['a', 'l', 's', 'e'] then some (JVal.b false, rest.drop 4) else none
      else if c = 'n' then
        if rest.take 3 = ['u', 'l', 'l'] then some (JVal.null, rest.drop 3) else none
      else parseNum (c :: rest)

def parseObjBody : Nat → List Char → Option (JVal × List Char)
  | 0, _ => none
  | f + 1, cs =>
    match cs with
    | [] => none
    | c :: rest =>
      if c = '\x7d' then some (JVal.obj JObj.nil, rest)
      else
        match parseMembers f (c :: rest) with
        | none => none
        | some (kvs, r) => some (JVal.obj kvs, r)

def parseMembers : Nat → List Char → Option (JObj × List Char)
  | 0, _ => none
  | f + 1, cs =>
    match cs with
    | [] => none
    | c :: rest =>
      if c = '"' then
        match parseStrAux rest with
        | none => none
        | some (k, r1) =>
          match skipW r1 with
          | ':' :: r2 =>
            match parseVal f r2 with
            | none => none
            | some (v, r3) =>
              match skipW r3 with
              | [] => none
              | c2 :: r4 =>
                if c2 = ',' then
                  match parseMembers f (skipW r4) with
                  | none => none
                  | some (kvs, r5) => some (objInsert (String.mk k) v kvs, r5)
                else if c2 = '\x7d' then some (JObj.cons (String.mk k) v JObj.nil, r4)
                else none
          | _ => none
      else none

def parseArrBody : Nat → List Char → Option (JVal × List Char)
  | 0, _ => none
  | f + 1, cs =>
    match cs with
    | [] => none
    | c :: rest =>
      if c = ']' then some (JVal.arr JArr.nil, rest)
      else
        match parseElems f (c :: rest) with
        | none => none
        | some (vs, r) => some (JVal.arr vs, r)

def parseElems : Nat → List Char → Option (JArr × List Char)
  | 0, _ => none
  | f + 1, cs =>
    match parseVal f cs with
    | none => none
    | some (v, r) =>
      match skipW r with
      | [] => none
      | c :: r2 =>
        if c = ',' then
          match parseElems f r2 with
          | none => none
          | some (vs, r3) => some (JArr.cons v vs, r3)
        else if c = ']' then some (JArr.cons v JArr.nil, r2)
        else none

end

/-- Scan a whole stripped document: the parse must consume every character.
The fuel strictly dominates the number of scanner calls on any input of
this length, so it never cuts a parse short. -/
def jloadsCore (t : List Char) : Option JVal :=
  match parseVal (4 * t.length + 4) t with
  | some (v, []) => some v
  | _ => none

/-- `json.loads` on a character list: surrounding whitespace is ignored,
then the document must parse completely. -/
def jloads (cs : List Char) : Option JVal := jloadsCore (pyStrip cs)

theorem jloads_congr {cs cs' : List Char} (h : pyStrip cs = pyStrip cs') :
    jloads cs = jloads cs' := by
  unfold jloads
  rw [h]

theorem pyStrip_lstrip (cs : List Char) : pyStrip (lstrip cs) = pyStrip cs := by
  unfold pyStrip
  rw [lstrip_idem]

theorem pyStrip_rstrip (cs : List Char) : pyStrip (rstrip cs) = pyStrip cs := by
  unfold pyStrip
  rw [lstrip_rstrip_comm, rstrip_idem, ← lstrip_rstrip_comm, lstrip_rstrip_comm cs]

theorem jloads_lstrip (cs : List Char) : jloads (lstrip cs) = jloads cs :=
  jloads_congr (pyStrip_lstrip cs)

theorem jloads_rstrip (cs : List Char) : jloads (rstrip cs) = jloads cs :=
  jloads_congr (pyStrip_rstrip cs)

theorem jloads_cons_ws {c : Char} (hc : isWs c) (cs : List Char) :
    jloads (c :: cs) = jloads cs := by
  apply jloads_congr
  unfold pyStrip lstrip
  rw [List.dropWhile_cons, if_pos hc]

/-- An all-whitespace (in particular empty) line is not valid JSON. -/
theorem jloads_of_all_ws {cs : List Char} (h : cs.all isWs) : jloads cs = none := by
  unfold jloads pyStrip
  rw [lstrip_of_all h]
  rfl

/-! ### Lines of a body -/

/-- The lines Python's comprehension keeps: `... for line in body.split("\n") if line`. -/
def truthyLines (cs : List Char) : List (List Char) :=
  (pyLines cs).filter (fun l => !l.isEmpty)

/-- The JSON parses of the kept lines, in order. -/
def parsedOf (cs : List Char) : List (Option JVal) :=
  (truthyLines cs).map jloads

/-- The body is well-formed NDJSON: every non-empty line is valid JSON. -/
def goodBody (cs : List Char) : Prop :=
  ∀ l ∈ pyLines cs, l ≠ [] → jloads l ≠ none

theorem pyLines_cons (c : Char) (rest : List Char) :
    pyLines (c :: rest) =
      if c = '\n' then [] :: pyLines rest
      else
        match pyLines rest with
        | [] => [[c]]
        | l :: ls => (c :: l) :: ls := rfl

theorem pyLines_ne_nil (cs : List Char) : pyLines cs ≠ [] := by
  cases cs with
  | nil => simp [pyLines]
  | cons c rest =>
    rw [pyLines_cons]
    by_cases h : c = '\n'
    · simp [h]
    · rw [if_neg h]
      cases pyLines rest <;> simp

theorem pyLines_append_newline (a b : List Char) :
    pyLines (a ++ '\n' :: b) = pyLines a ++ pyLines b := by
  induction a with
  | nil =>
    rw [List.nil_append, pyLines_cons, if_pos rfl]
    simp [pyLines]
  | cons c a ih =>
    by_cases h : c = '\n'
    · rw [List.cons_append, pyLines_cons, if_pos h, ih, pyLines_cons, if_pos h]
      simp
    · rcases ha : pyLines a with _ | ⟨l, ls⟩
      · exact absurd ha (pyLines_ne_nil a)
      · rw [List.cons_append, pyLines_cons, if_neg h, ih, ha, pyLines_cons, if_neg h, ha]
        simp

theorem pyLines_no_newline {cs : List Char} (h : '\n' ∉ cs) : pyLines cs = [cs] := by
  induction cs with
  | nil => simp [pyLines]
  | cons c rest ih =>
    rw [pyLines_cons, if_neg (by intro hc; exact h (by simp [hc]))]
    rw [ih (by intro hm; exact h (by simp [hm]))]

/-- Every list has a last newline or none at all. -/
theorem last_newline_split (cs : List Char) :
    '\n' ∉ cs ∨ ∃ a b, cs = a ++ '\n' :: b ∧ '\n' ∉ b := by
  induction cs with
  | nil => left; simp
  | cons c rest ih =>
    rcases ih with hnl | ⟨a, b, hab, hb⟩
    · by_cases hc : c = '\n'
      · right
        exact ⟨[], rest, by simp [hc], hnl⟩
      · left
        intro hmem
        rcases List.mem_cons.mp hmem with h | h
        · exact hc h.symm
        · exact hnl h
    · right
      exact ⟨c :: a, b, by simp [hab], hb⟩

theorem mem_rstrip_subset {x : Char} {cs : List Char} (h : x ∈ rstrip cs) : x ∈ cs := by
  unfold rstrip at h
  rw [List.mem_reverse] at h
  have := (List.dropWhile_sublist (p := isWs) (l := cs.reverse)).subset h
  simpa using this

theorem jloads_nil : jloads ([] : List Char) = none := rfl

/-- A character of a line of `cs` is a character of `cs`. -/
theorem mem_of_mem_pyLines {x : Char} :
    ∀ {cs l : List Char}, l ∈ pyLines cs → x ∈ l → x ∈ cs := by
  intro cs
  induction cs with
  | nil =>
    intro l hl hx
    simp [pyLines] at hl
    rw [hl] at hx
    exact absurd hx (by simp)
  | cons c rest ih =>
    intro l hl hx
    rw [pyLines_cons] at hl
    by_cases hc : c = '\n'
    · rw [if_pos hc] at hl
      rcases List.mem_cons.mp hl with rfl | hl
      · exact absurd hx (by simp)
      · exact List.mem_cons_of_mem _ (ih hl hx)
    · rw [if_neg hc] at hl
      rcases hrest : pyLines rest with _ | ⟨l0, ls⟩
      · exact absurd hrest (pyLines_ne_nil rest)
      · rw [hrest] at hl
        have hl0 : l0 ∈ pyLines rest := by
          rw [hrest]
          exact List.mem_cons_self _ _
        rcases List.mem_cons.mp hl with rfl | hl
        · rcases List.mem_cons.mp hx with rfl | hx
          · exact List.mem_cons_self _ _
          · exact List.mem_cons_of_mem _ (ih hl0 hx)
        · have hls : l ∈ pyLines rest := by
            rw [hrest]
            exact List.mem_cons_of_mem _ hl
          exact List.mem_cons_of_mem _ (ih hls hx)

/-- If the whole body is whitespace and well-formed NDJSON, no line is kept. -/
theorem parsedOf_of_all_ws {cs : List Char} (hall : cs.all isWs) (hg : goodBody cs) :
    parsedOf cs = [] := by
  unfold parsedOf truthyLines
  rw [List.filter_eq_nil_iff.mpr ?_]
  · rfl
  · intro l hl
    rcases l with _ | ⟨c0, l0⟩
    · simp
    · intro _
      have hws : (c0 :: l0).all isWs :=
        List.all_eq_true.mpr (fun x hx => (List.all_eq_true.mp hall) x (mem_of_mem_pyLines hl hx))
      exact (hg _ hl (by simp)) (jloads_of_all_ws hws)

theorem goodBody_iff_parsedOf (cs : List Char) :
    goodBody cs ↔ ∀ o ∈ parsedOf cs, o ≠ none := by
  unfold goodBody parsedOf truthyLines
  constructor
  · intro h o ho
    rw [List.mem_map] at ho
    obtain ⟨l, hl, rfl⟩ := ho
    rw [List.mem_filter] at hl
    refine h l hl.1 ?_
    intro h0
    rw [h0] at hl
    simp at hl
  · intro h l hl hlne
    apply h (jloads l)
    rw [List.mem_map]
    refine ⟨l, List.mem_filter.mpr ⟨hl, ?_⟩, rfl⟩
    rcases l with _ | ⟨x, xs⟩
    · exact absurd rfl hlne
    · simp

theorem parsedOf_lstrip : ∀ cs : List Char, goodBody cs → parsedOf (lstrip cs) = parsedOf cs := by
  intro cs
  induction cs with
  | nil => intro _; rfl
  | cons c rest ih =>
    intro hg
    by_cases hc : isWs c
    · have hl : lstrip (c :: rest) = lstrip rest := by
        simp [lstrip, List.dropWhile_cons, hc]
      rw [hl]
      by_cases hnl : c = '\n'
      · have hlines : pyLines (c :: rest) = [] :: pyLines rest := by
          rw [pyLines_cons, if_pos hnl]
        have hpr : parsedOf (c :: rest) = parsedOf rest := by
          unfold parsedOf truthyLines
          rw [hlines]
          simp [List.filter_cons]
        have hgr : goodBody rest := by
          intro l hl2 hlne
          exact hg l (by rw [hlines]; exact List.mem_cons_of_mem _ hl2) hlne
        rw [hpr]
        exact ih hgr
      · rcases hrest : pyLines rest with _ | ⟨l, ls⟩
        · exact absurd hrest (pyLines_ne_nil rest)
        · have hlines : pyLines (c :: rest) = (c :: l) :: ls := by
            rw [pyLines_cons, if_neg hnl, hrest]
          have hj : jloads (c :: l) ≠ none :=
            hg _ (by rw [hlines]; exact List.mem_cons_self _ _) (by simp)
          have hjl : jloads (c :: l) = jloads l := jloads_cons_ws hc l
          have hlne : l ≠ [] := by
            intro h0
            rw [h0] at hjl hj
            exact hj (hjl.trans jloads_nil)
          rcases l with _ | ⟨x, xs⟩
          · exact absurd rfl hlne
          · have hpr : parsedOf (c :: rest) = parsedOf rest := by
              unfold parsedOf truthyLines
              rw [hlines, hrest]
              simp only [List.filter_cons, List.isEmpty_cons, Bool.not_false, if_pos rfl]
              simp [hjl]
            have hgr : goodBody rest := by
              intro l2 hl2 hlne2
              rw [hrest] at hl2
              rcases List.mem_cons.mp hl2 with rfl | hmem
              · rw [← hjl]
                exact hj
              · exact hg l2 (by rw [hlines]; exact List.mem_cons_of_mem _ hmem) hlne2
            rw [hpr]
            exact ih hgr
    · rw [show lstrip (c :: rest) = c :: rest by simp [lstrip, List.dropWhile_cons, hc]]

/-- `parsedOf` of a newline-free body. -/
theorem parsedOf_single {cs : List Char} (hnl : '\n' ∉ cs) :
    parsedOf cs = if cs.isEmpty then [] else [jloads cs] := by
  unfold parsedOf truthyLines
  rw [pyLines_no_newline hnl]
  rcases cs with _ | ⟨x, xs⟩
  · simp
  · simp

theorem parsedOf_rstrip : ∀ (n : Nat) (cs : List Char), cs.length ≤ n → goodBody cs →
    parsedOf (rstrip cs) = parsedOf cs := by
  intro n
  induction n with
  | zero =>
    intro cs hlen _
    have : cs = [] := List.eq_nil_of_length_eq_zero (Nat.le_zero.mp hlen)
    subst this
    rfl
  | succ n ih =>
    intro cs hlen hg
    rcases last_newline_split cs with hnl | ⟨a, b, hab, hb⟩
    · by_cases hall : cs.all isWs
      · rw [rstrip_of_all hall, parsedOf_of_all_ws hall hg]
        rfl
      · have hcne : cs ≠ [] := by
          rintro rfl
          exact hall rfl
        have hrne : rstrip cs ≠ [] := by
          intro h0
          exact hall (all_of_rstrip_all cs (by rw [h0]; rfl))
        have hrnl : '\n' ∉ rstrip cs := fun hm => hnl (mem_rstrip_subset hm)
        rw [parsedOf_single hrnl, parsedOf_single hnl,
          if_neg (by simpa using hrne), if_neg (by simpa using hcne), jloads_rstrip]
    · subst hab
      have hlines : pyLines (a ++ '\n' :: b) = pyLines a ++ [b] := by
        rw [pyLines_append_newline, pyLines_no_newline hb]
      have hga : goodBody a := by
        intro l hl hlne
        exact hg l (by rw [hlines]; exact List.mem_append_left _ hl) hlne
      have halen : a.length ≤ n := by
        simp [List.length_append] at hlen
        omega
      have hpcs : parsedOf (a ++ '\n' :: b) =
          parsedOf a ++ (if b.isEmpty then [] else [jloads b]) := by
        unfold parsedOf truthyLines
        rw [hlines, List.filter_append, List.map_append]
        congr 1
        rcases b with _ | ⟨x, xs⟩
        · simp
        · simp
      by_cases hball : b.all isWs
      · have hbnil : b = [] := by
          rcases b with _ | ⟨x, xs⟩
          · rfl
          · exfalso
            have hj : jloads (x :: xs) ≠ none :=
              hg _ (by rw [hlines]; exact List.mem_append_right _ (by simp)) (by simp)
            exact hj (jloads_of_all_ws hball)
        subst hbnil
        have hr : rstrip (a ++ '\n' :: ([] : List Char)) = rstrip a := by
          rw [rstrip_append]
          simp [isWs]
        rw [hr, hpcs, ih a halen hga]
        simp
      · have hbne : b ≠ [] := by
          rintro rfl
          exact hball rfl
        have hr : rstrip (a ++ '\n' :: b) = a ++ '\n' :: rstrip b := by
          rw [rstrip_append, if_neg ?_]
          · rw [rstrip_cons, if_neg (fun hh => hball hh.2)]
          · intro hh
            rw [List.all_cons] at hh
            exact hball (Bool.and_eq_true_iff.mp hh).2
        have hrbne : rstrip b ≠ [] := by
          intro h0
          exact hball (all_of_rstrip_all b (by rw [h0]; rfl))
        have hrbnl : '\n' ∉ rstrip b := fun hm => hb (mem_rstrip_subset hm)
        have hp2 : parsedOf (a ++ '\n' :: rstrip b) = parsedOf a ++ [jloads (rstrip b)] := by
          unfold parsedOf truthyLines
          rw [pyLines_append_newline, pyLines_no_newline hrbnl,
            List.filter_append, List.map_append]
          congr 1
          rcases hrb : rstrip b with _ | ⟨x, xs⟩
          · exact absurd hrb hrbne
          · simp
        rw [hr, hp2, hpcs, jloads_rstrip, if_neg (by simpa using hbne)]

/-- Stripping the body does not change which lines `json.loads` sees, nor
their parses, provided the body is well-formed NDJSON. -/
theorem parsedOf_pyStrip (cs : List Char) (hg : goodBody cs) :
    parsedOf (pyStrip cs) = parsedOf cs := by
  unfold pyStrip
  have h1 : parsedOf (lstrip cs) = parsedOf cs := parsedOf_lstrip cs hg
  have hg1 : goodBody (lstrip cs) := by
    rw [goodBody_iff_parsedOf, h1]
    exact (goodBody_iff_parsedOf cs).mp hg
  rw [parsedOf_rstrip (lstrip cs).length (lstrip cs) le_rfl hg1, h1]

theorem goodBody_pyStrip {cs : List Char} (hg : goodBody cs) : goodBody (pyStrip cs) := by
  rw [goodBody_iff_parsedOf, parsedOf_pyStrip cs hg]
  exact (goodBody_iff_parsedOf cs).mp hg

/-! ### Fetcher (`fetch_activities`, src/main.py lines 18-42)

The HTTP transport is external to the program; a fetch is modelled as a
function of the `requests` response it receives.  `ValueError` payloads are
`JVal`s: the non-200 branch raises `ValueError({...})` with a dict, while a
malformed line raises `json.JSONDecodeError`, a `ValueError` whose single
argument is a position message string. -/

structure HttpResponse where
  status_code : Int
  url : String
  text : String

/-- The dict argument of the `ValueError` raised on a non-200 status:
`{"status": "error", "message": f"{code} Client Error for URL: {url}",
"response": response.text}`. -/
def fetchErrorPayload (resp : HttpResponse) : JVal :=
  JVal.obj (recOf
    [("status", JVal.s "error"),
     ("message", JVal.s (toString resp.status_code ++ " Client Error for URL: " ++ resp.url)),
     ("response", JVal.s resp.text)])

/-- The message of the `json.JSONDecodeError` raised on a malformed line.
The exact text varies with the position of the failure inside the line and
is abstracted to the message for an invalid leading token; no claim
constrains the text — only that the payload is a bare string carrying no
status code, URL or response body. -/
def jsonDecodeMsg (_line : List Char) : String :=
  "Expecting value: line 1 column 1 (char 0)"

/-- `[json.loads(line) for line in lines if line]` over the already-filtered
lines: parses left to right, the first malformed line aborting the whole
comprehension with a `JSONDecodeError`. -/
def loadLines : List (List Char) → Except JVal (List JVal)
  | [] => Except.ok []
  | l :: ls =>
    match jloads l with
    | some v =>
      match loadLines ls with
      | Except.ok vs => Except.ok (v :: vs)
      | Except.error e => Except.error e
    | none => Except.error (JVal.s (jsonDecodeMsg l))

/-- `fetch_activities`, as a function of the response the CRM API returned
for the request: non-200 raises the dict-carrying `ValueError`; otherwise
the body is stripped, split on newlines, and each kept line parsed. -/
def fetch_activities (resp : HttpResponse) : Except JVal (List JVal) :=
  if resp.status_code ≠ 200 then Except.error (fetchErrorPayload resp)
  else loadLines (truthyLines (pyStrip resp.text.data))

theorem fetch_200 (resp : HttpResponse) (h200 : resp.status_code = 200) :
    fetch_activities resp = loadLines (truthyLines (pyStrip resp.text.data)) := by
  unfold fetch_activities
  rw [if_neg (by rw [h200]; simp)]

theorem loadLines_all_some :
    ∀ ls : List (List Char), (∀ l ∈ ls, jloads l ≠ none) →
      ∃ recs, loadLines ls = Except.ok recs ∧ recs.map some = ls.map jloads := by
  intro ls
  induction ls with
  | nil => exact fun _ => ⟨[], rfl, rfl⟩
  | cons l ls ih =>
    intro h
    rcases hv : jloads l with _ | v
    · exact absurd hv (h l (by simp))
    · obtain ⟨recs, hrec, hmap⟩ := ih (fun x hx => h x (List.mem_cons_of_mem _ hx))
      refine ⟨v :: recs, ?_, ?_⟩
      · unfold loadLines
        rw [hv, hrec]
      · simp [hmap, hv]

theorem loadLines_error :
    ∀ ls : List (List Char), (∃ l ∈ ls, jloads l = none) →
      ∃ m, loadLines ls = Except.error (JVal.s m) := by
  intro ls
  induction ls with
  | nil => rintro ⟨l, hl, _⟩; exact absurd hl (by simp)
  | cons l ls ih =>
    rintro ⟨l0, hmem, h0⟩
    rcases hv : jloads l with _ | v
    · exact ⟨jsonDecodeMsg l, by unfold loadLines; rw [hv]⟩
    · have : ∃ x ∈ ls, jloads x = none := by
        rcases List.mem_cons.mp hmem with rfl | hmem2
        · rw [hv] at h0
          exact absurd h0 (by simp)
        · exact ⟨l0, hmem2, h0⟩
      obtain ⟨m, hm⟩ := ih this
      refine ⟨m, ?_⟩
      unfold loadLines
      rw [hv, hm]

theorem goodBody_truthy {cs : List Char} (hg : goodBody cs) :
    ∀ l ∈ truthyLines cs, jloads l ≠ none := by
  intro l hl
  rw [truthyLines, List.mem_filter] at hl
  refine hg l hl.1 ?_
  intro h0
  rw [h0] at hl
  simp at hl

/-- On a 200 response whose body is well-formed NDJSON, the fetch succeeds
and the returned records are exactly the parses of the body's kept lines. -/
theorem fetch_ok_of_goodBody (resp : HttpResponse) (h200 : resp.status_code = 200)
    (hg : goodBody resp.text.data) :
    ∃ recs, fetch_activities resp = Except.ok recs ∧
      recs.map some = parsedOf resp.text.data := by
  rw [fetch_200 resp h200]
  obtain ⟨recs, h1, h2⟩ :=
    loadLines_all_some (truthyLines (pyStrip resp.text.data))
      (goodBody_truthy (goodBody_pyStrip hg))
  refine ⟨recs, h1, ?_⟩
  rw [h2]
  exact parsedOf_pyStrip resp.text.data hg

/-- On a 200 response with a malformed kept line, the fetch fails with a
bare message string (the `JSONDecodeError` argument) and yields no records. -/
theorem fetch_error_of_badLine (resp : HttpResponse) (h200 : resp.status_code = 200)
    (hbad : ∃ l ∈ truthyLines (pyStrip resp.text.data), jloads l = none) :
    ∃ m, fetch_activities resp = Except.error (JVal.s m) := by
  rw [fetch_200 resp h200]
  exact loadLines_error _ hbad

/-! ### Transformer (`transform`, src/main.py lines 44-65)

A pandas DataFrame is modelled column-orientedly: a row count plus ordered,
possibly duplicated, named columns of cells; a cell of `none` is pandas
NaN/NaT/missing.  `pd.DataFrame(records)` for dict records takes the union
of the keys in first-appearance order; a record without the key gets a
missing cell.  Activity records are the dicts `json.loads` produced. -/

abbrev Cell := Option JVal

/-- An activity record: the dict `json.loads` produced for one line. -/
abbrev Rec := JObj

structure DF where
  nrows : Nat
  cols : List (String × List Cell)
deriving DecidableEq

def colNames (df : DF) : List String := df.cols.map Prod.fst

/-- `col in df.columns`. -/
def hasCol (df : DF) (c : String) : Bool := df.cols.any (fun p => p.1 == c)

/-- `df[col]` (unique labels at every use site in the pipeline). -/
def getCol (df : DF) (c : String) : List Cell :=
  match df.cols.find? (fun p => p.1 == c) with
  | some p => p.2
  | none => []

/-- Append the keys of `ks` not yet present, keeping first-appearance order. -/
def addKeys (acc : List String) (ks : List String) : List String :=
  ks.foldl (fun a k => if a.contains k then a else a ++ [k]) acc

def keyUnion (records : List Rec) : List String :=
  records.foldl (fun a r => addKeys a (jobjKeys r)) []

/-- `pd.DataFrame(records)` on a list of dict records. -/
def pdDataFrame (records : List Rec) : DF :=
  ⟨records.length, (keyUnion records).map (fun c => (c, records.map (fun r => jobjLookup c r)))⟩

/-- A minimal ISO `YYYY-MM-DD` reading of a date-like string.  pandas
accepts far more formats; the numeric encoding of the instant and the
breadth of accepted formats are irrelevant to every claim (only
convertible-versus-NaT matters), so the model keeps a small faithful core. -/
def parseTimestamp (str : String) : Option Int :=
  match str.data with
  | y1 :: y2 :: y3 :: y4 :: '-' :: m1 :: m2 :: '-' :: d1 :: d2 :: rest =>
    if [y1, y2, y3, y4, m1, m2, d1, d2].all Char.isDigit
        ∧ (rest = [] ∨ rest.head? = some 'T' ∨ rest.head? = some ' ') then
      some ((digitsToNat [y1, y2, y3, y4] * 10000
        + digitsToNat [m1, m2] * 100 + digitsToNat [d1, d2] : Nat) : Int)
    else none
  | _ => none

/-- One cell under `pd.to_datetime(_, errors="coerce")`: parseable strings
become Timestamps, integers are epoch offsets, everything else (missing,
null, dicts, booleans, lists, unparseable strings) coerces to NaT. -/
def to_datetime_cell : Cell → Cell
  | some (JVal.s str) => (parseTimestamp str).map JVal.ts
  | some (JVal.i n) => some (JVal.ts n)
  | _ => none

def date_cols : List String := ["startDate", "endDate", "doneDate"]

def nested_cols : List String := ["type", "organization", "person", "user", "company"]

def convertDateCol (df : DF) (c : String) : DF :=
  ⟨df.nrows, df.cols.map (fun p => if p.1 == c then (p.1, p.2.map to_datetime_cell) else p)⟩

/-- The date-conversion loop of `transform`. -/
def applyDates (df : DF) : DF :=
  date_cols.foldl (fun d c => if hasCol d c then convertDateCol d c else d) df

/-- `pandas.io.json._normalize.nested_to_record`: flatten nested dicts with
a `.` separator.  (The original moves a flattened sub-dict's keys to the end
of the record; the model flattens in place — indistinguishable for the flat
objects of this feed, and column order is never load-bearing.) -/
def flattenKVs (pre : String) : JObj → List (String × JVal)
  | JObj.nil => []
  | JObj.cons k (JVal.obj sub) rest => flattenKVs (pre ++ k ++ ".") sub ++ flattenKVs pre rest
  | JObj.cons k v rest => (pre ++ k, v) :: flattenKVs pre rest

def cellObj : Cell → Option JObj
  | some (JVal.obj kvs) => some kvs
  | _ => none

def isObjCell (c : Cell) : Bool := (cellObj c).isSome

def normCell (nm : String) (c : Cell) : Cell :=
  match cellObj c with
  | some kvs => (flattenKVs "" kvs).lookup nm
  | none => none

def normKeys (cells : List Cell) : List String :=
  cells.foldl (fun acc c => addKeys acc ((flattenKVs "" ((cellObj c).getD JObj.nil)).map Prod.fst)) []

/-- `pd.json_normalize` over the cells of a column.  A cell that is not a
dict — missing (NaN), JSON null, a scalar or a list — makes the call raise
(`AttributeError` from `y.values()` in the record check or `d.items()` in
`nested_to_record`), modelled as `none`; when every cell is a dict the
result has one column per flattened key, missing keys giving NaN. -/
def json_normalize (cells : List Cell) : Option DF :=
  if cells.all isObjCell then
    some ⟨cells.length, (normKeys cells).map (fun nm => (nm, cells.map (normCell nm)))⟩
  else none

/-- `df.drop(columns=[c])`. -/
def dropColAll (df : DF) (c : String) : DF :=
  ⟨df.nrows, df.cols.filter (fun p => p.1 != c)⟩

/-- `nested_df.columns = [f"{col}_{subcol}" ...]`. -/
def prefixCols (c : String) (nd : DF) : DF :=
  ⟨nd.nrows, nd.cols.map (fun p => (c ++ "_" ++ p.1, p.2))⟩

def padTo (n : Nat) (cells : List Cell) : List Cell :=
  cells ++ List.replicate (n - cells.length) none

/-- `pd.concat([a, b], axis=1)` on default integer indices: the union of
the row indices (here always equal lengths, so no padding occurs). -/
def concatCols (a b : DF) : DF :=
  ⟨max a.nrows b.nrows, (a.cols ++ b.cols).map (fun p => (p.1, padTo (max a.nrows b.nrows) p.2))⟩

/-- One iteration of the nested-column loop of `transform`. -/
def expandNested (df : DF) (c : String) : Option DF :=
  if hasCol df c then
    match json_normalize (getCol df c) with
    | some nd => some (concatCols (dropColAll df c) (prefixCols c nd))
    | none => none
  else some df

/-- `transform(records)`: `none` models an uncaught exception escaping the
call (which `adsim_activity_etl` does not handle). -/
def transform (records : List Rec) : Option DF :=
  if records.isEmpty then some ⟨0, []⟩
  else List.foldlM expandNested (applyDates (pdDataFrame records)) nested_cols

/-! ### Loader (`load_to_bigquery`, src/main.py lines 67-74) -/

/-- `df.empty`: true when either axis has length zero. -/
def dfEmpty (df : DF) : Bool := df.nrows == 0 || df.cols.isEmpty

structure LoadJob where
  output_rows : Nat
deriving DecidableEq

/-- `load_to_bigquery` over an oracle `bqLoad` for the BigQuery client's
`load_table_from_dataframe(...).result()`; `none` from the oracle is a
failed load job whose exception propagates (modelled as `none` overall). -/
def load_to_bigquery (bqLoad : DF → String → Option LoadJob) (df : DF)
    (table_id : String := "databaseparanaiba.adsim_dataset.activity") : Option String :=
  if dfEmpty df then some "Sem dados para carregar"
  else
    match bqLoad df table_id with
    | some job => some ("Carregado " ++ toString job.output_rows ++ " linhas na tabela " ++ table_id)
    | none => none

/-! ### Orchestrator (`adsim_activity_etl`, src/main.py lines 77-104)

Instants are `Int` microseconds since the epoch (`datetime` resolution);
`timedelta(days=1)` is `day` microseconds.  The millisecond-ISO
serialization of the window bounds is absorbed into the transport oracle
`api`, which maps a sub-window's bounds to the response the CRM returned —
no claim constrains the serialized form.  The handler is instrumented with
the list of sub-windows actually fetched, in order. -/

def day : Int := 86400000000

/-- The `while current_start < end_date` loop producing the fetched
sub-windows.  The fuel argument only bounds the iteration count; any fuel
at least the number of iterations (90 here) yields the same list. -/
def batchesAux (e step : Int) : Nat → Int → List (Int × Int)
  | 0, _ => []
  | fuel + 1, cs =>
    if cs < e then (cs, min (cs + step) e) :: batchesAux e step fuel (min (cs + step) e)
    else []

/-- The sub-windows of `[now - 90 days, now)` at 1-day granularity. -/
def windows90 (now : Int) : List (Int × Int) :=
  batchesAux now day 1000 (now - 90 * day)

/-- The batch loop: fetch each sub-window in order, accumulating records;
the first `ValueError` aborts the loop.  Also returns the windows fetched. -/
def runWindows (api : Int → Int → HttpResponse) :
    List (Int × Int) → Except JVal (List JVal) × List (Int × Int)
  | [] => (Except.ok [], [])
  | w :: ws =>
    match fetch_activities (api w.1 w.2) with
    | Except.error e => (Except.error e, [w])
    | Except.ok recs =>
      match runWindows api ws with
      | (Except.ok rest, calls) => (Except.ok (recs ++ rest), w :: calls)
      | (Except.error e, calls) => (Except.error e, w :: calls)

def asRec : JVal → Option Rec
  | JVal.obj kvs => some kvs
  | _ => none


/-- The handler's HTTP response: `success` is the 200 JSON object (row
count and loader message), `error500` is `jsonify(e.args[0]), 500`, and
`unhandled` is an exception escaping the handler (the framework's own
error response). -/
inductive HandlerResp where
  | success (records_loaded : Nat) (message : String)
  | error500 (payload : JVal)
  | unhandled
deriving DecidableEq

/-- `adsim_activity_etl`, as a function of the current UTC instant, the
transport oracle and the warehouse oracle.  (Fetched records that are not
JSON objects would make `pd.DataFrame` build positional columns; that
corner is folded into the unhandled-exception outcome, and no claim
touches it.) -/
def adsim_activity_etl (now : Int) (api : Int → Int → HttpResponse)
    (bq : DF → String → Option LoadJob) : HandlerResp × List (Int × Int) :=
  match runWindows api (windows90 now) with
  | (Except.error e, calls) => (HandlerResp.error500 e, calls)
  | (Except.ok records, calls) =>
    match records.mapM asRec with
    | none => (HandlerResp.unhandled, calls)
    | some recs =>
      match transform recs with
      | none => (HandlerResp.unhandled, calls)
      | some df =>
        match load_to_bigquery bq df with
        | none => (HandlerResp.unhandled, calls)
        | some msg => (HandlerResp.success df.nrows msg, calls)

/-! ### Row alignment through `transform` -/

/-- Every column of `df` has one cell per record, and the cell in row `i`
is a function of record `i` alone — the formal sense in which no row's
values can shift to a different row. -/
def Rowwise (records : List Rec) (df : DF) : Prop :=
  df.nrows = records.length ∧ ∀ p ∈ df.cols, ∃ f : Rec → Cell, p.2 = records.map f

theorem hasCol_eq_isSome (df : DF) (c : String) :
    hasCol df c = (df.cols.find? (fun p => p.1 == c)).isSome := by
  unfold hasCol
  generalize df.cols = l
  induction l with
  | nil => rfl
  | cons p l ih =>
    by_cases hp : p.1 == c
    · simp [List.any_cons, List.find?_cons, hp]
    · simp [List.any_cons, List.find?_cons, hp, ih]

theorem find?_cols_map (f : String × List Cell → String × List Cell)
    (hf : ∀ p, (f p).1 = p.1) (c : String) :
    ∀ l : List (String × List Cell),
      (l.map f).find? (fun p => p.1 == c) = (l.find? (fun p => p.1 == c)).map f := by
  intro l
  induction l with
  | nil => rfl
  | cons p l ih =>
    by_cases hp : p.1 == c
    · simp [List.find?_cons, hf, hp]
    · simp [List.find?_cons, hf, hp, ih]

theorem find?_filter_ne (c c' : String) (hne : c ≠ c') :
    ∀ l : List (String × List Cell),
      (l.filter (fun p => p.1 != c')).find? (fun p => p.1 == c) =
        l.find? (fun p => p.1 == c) := by
  intro l
  induction l with
  | nil => rfl
  | cons p l ih =>
    by_cases hp : p.1 = c
    · have h1 : (p.1 != c') = true := by
        rw [bne_iff_ne, hp]
        exact hne
      have hpb : (p.1 == c) = true := beq_iff_eq.mpr hp
      rw [List.filter_cons, if_pos h1]
      simp [List.find?_cons, hpb]
    · have hp2 : (p.1 == c) = false := beq_eq_false_iff_ne.mpr hp
      rw [List.filter_cons]
      by_cases h2 : (p.1 != c') = true
      · rw [if_pos h2]
        simp [List.find?_cons, hp2, ih]
      · rw [if_neg h2]
        simp [List.find?_cons, hp2, ih]

theorem find?_append_some (pred : String × List Cell → Bool) :
    ∀ (l1 l2 : List (String × List Cell)) (x : String × List Cell),
      l1.find? pred = some x → (l1 ++ l2).find? pred = some x := by
  intro l1
  induction l1 with
  | nil => intro l2 x h; exact absurd h (by simp)
  | cons p l ih =>
    intro l2 x h
    by_cases hp : pred p = true
    · simp only [List.find?_cons, hp, cond_true] at h
      simp [List.cons_append, List.find?_cons, hp, h]
    · have hp2 : pred p = false := by
        rw [Bool.eq_false_iff]
        exact hp
      simp only [List.find?_cons, hp2, cond_false] at h
      simp only [List.cons_append, List.find?_cons, hp2, cond_false]
      exact ih l2 x h

theorem padTo_eq_self {n : Nat} {cells : List Cell} (h : cells.length = n) :
    padTo n cells = cells := by
  unfold padTo
  rw [h]
  simp

theorem json_normalize_some {cells : List Cell} {nd : DF} (h : json_normalize cells = some nd) :
    nd.nrows = cells.length ∧ ∀ p ∈ nd.cols, ∃ nm, p = (nm, cells.map (normCell nm)) := by
  unfold json_normalize at h
  by_cases hall : cells.all isObjCell
  · rw [if_pos hall] at h
    cases h
    refine ⟨rfl, ?_⟩
    intro p hp
    simp only [List.mem_map] at hp
    obtain ⟨nm, _, rfl⟩ := hp
    exact ⟨nm, rfl⟩
  · rw [if_neg hall] at h
    cases h

theorem json_normalize_none {cells : List Cell} (h : ¬ (cells.all isObjCell = true)) :
    json_normalize cells = none := by
  unfold json_normalize
  rw [if_neg h]

theorem rowwise_pdDataFrame (records : List Rec) : Rowwise records (pdDataFrame records) := by
  refine ⟨rfl, ?_⟩
  intro p hp
  unfold pdDataFrame at hp
  simp only [List.mem_map] at hp
  obtain ⟨c, _, rfl⟩ := hp
  exact ⟨fun r => jobjLookup c r, rfl⟩

theorem rowwise_convertDateCol {r : List Rec} {df : DF} (h : Rowwise r df) (c : String) :
    Rowwise r (convertDateCol df c) := by
  obtain ⟨hn, hc⟩ := h
  refine ⟨hn, ?_⟩
  intro p hp
  unfold convertDateCol at hp
  simp only [List.mem_map] at hp
  obtain ⟨q, hq, rfl⟩ := hp
  obtain ⟨f, hf⟩ := hc q hq
  by_cases hqc : (q.1 == c) = true
  · rw [if_pos hqc]
    exact ⟨fun rec => to_datetime_cell (f rec), by simp only [hf, List.map_map]; rfl⟩
  · rw [if_neg hqc]
    exact ⟨f, hf⟩

theorem rowwise_applyDates {r : List Rec} {df : DF} (h : Rowwise r df) :
    Rowwise r (applyDates df) := by
  unfold applyDates
  have hgen : ∀ (l : List String) (d : DF), Rowwise r d →
      Rowwise r (l.foldl (fun d c => if hasCol d c then convertDateCol d c else d) d) := by
    intro l
    induction l with
    | nil => exact fun d hd => hd
    | cons c l ih =>
      intro d hd
      simp only [List.foldl_cons]
      by_cases hc : hasCol d c = true
      · rw [if_pos hc]
        exact ih _ (rowwise_convertDateCol hd c)
      · rw [if_neg hc]
        exact ih _ hd
  exact hgen date_cols df h

theorem rowwise_dropColAll {r : List Rec} {df : DF} (h : Rowwise r df) (c : String) :
    Rowwise r (dropColAll df c) := by
  obtain ⟨hn, hc⟩ := h
  refine ⟨hn, ?_⟩
  intro p hp
  unfold dropColAll at hp
  exact hc p (List.mem_of_mem_filter hp)

theorem rowwise_prefixCols {r : List Rec} {nd : DF} (h : Rowwise r nd) (c : String) :
    Rowwise r (prefixCols c nd) := by
  obtain ⟨hn, hc⟩ := h
  refine ⟨hn, ?_⟩
  intro p hp
  unfold prefixCols at hp
  simp only [List.mem_map] at hp
  obtain ⟨q, hq, rfl⟩ := hp
  exact hc q hq

theorem rowwise_concat {r : List Rec} {a b : DF} (ha : Rowwise r a) (hb : Rowwise r b) :
    Rowwise r (concatCols a b) := by
  obtain ⟨han, hac⟩ := ha
  obtain ⟨hbn, hbc⟩ := hb
  have hmax : max a.nrows b.nrows = r.length := by
    rw [han, hbn, Nat.max_self]
  refine ⟨hmax, ?_⟩
  intro p hp
  unfold concatCols at hp
  simp only [List.mem_map] at hp
  obtain ⟨q, hq, rfl⟩ := hp
  have hf : ∃ f : Rec → Cell, q.2 = r.map f := by
    rcases List.mem_append.mp hq with h | h
    · exact hac q h
    · exact hbc q h
  obtain ⟨f, hf⟩ := hf
  refine ⟨f, ?_⟩
  show padTo (max a.nrows b.nrows) q.2 = r.map f
  rw [padTo_eq_self (by rw [hf, List.length_map, hmax]), hf]

theorem getCol_eq_of_find? {df : DF} {c : String} {p : String × List Cell}
    (h : df.cols.find? (fun q => q.1 == c) = some p) : getCol df c = p.2 := by
  unfold getCol
  rw [h]

theorem rowwise_expandNested {r : List Rec} {df df2 : DF} {c : String}
    (h : Rowwise r df) (hs : expandNested df c = some df2) : Rowwise r df2 := by
  unfold expandNested at hs
  by_cases hcol : hasCol df c = true
  · rw [if_pos hcol] at hs
    rcases hn : json_normalize (getCol df c) with _ | nd
    · rw [hn] at hs
      cases hs
    · rw [hn] at hs
      cases hs
      obtain ⟨hnr, hnc⟩ := json_normalize_some hn
      have hget : ∃ f : Rec → Cell, getCol df c = r.map f := by
        rw [hasCol_eq_isSome] at hcol
        obtain ⟨p, hp⟩ := Option.isSome_iff_exists.mp hcol
        rw [getCol_eq_of_find? hp]
        exact h.2 p (List.mem_of_find?_eq_some hp)
      obtain ⟨f, hf⟩ := hget
      have hndR : Rowwise r nd := by
        refine ⟨by rw [hnr, hf, List.length_map], ?_⟩
        intro p hp
        obtain ⟨nm, rfl⟩ := hnc p hp
        exact ⟨fun rec => normCell nm (f rec), by rw [hf, List.map_map]; rfl⟩
      exact rowwise_concat (rowwise_dropColAll h c) (rowwise_prefixCols hndR c)
  · rw [if_neg hcol] at hs
    cases hs
    exact h

theorem rowwise_foldlM {r : List Rec} :
    ∀ (l : List String) (df df2 : DF), Rowwise r df →
      List.foldlM expandNested df l = some df2 → Rowwise r df2 := by
  intro l
  induction l with
  | nil =>
    intro df df2 h hf
    cases hf
    exact h
  | cons c l ih =>
    intro df df2 h hf
    rcases hx : expandNested df c with _ | dfm
    · rw [List.foldlM_cons, hx] at hf
      cases hf
    · rw [List.foldlM_cons, hx] at hf
      exact ih dfm df2 (rowwise_expandNested h hx) hf

/-- Whenever `transform` returns a dataset, it is rowwise-aligned to the
input records. -/
theorem transform_rowwise {records : List Rec} {df : DF}
    (h : transform records = some df) : Rowwise records df := by
  unfold transform at h
  by_cases he : records.isEmpty = true
  · rw [if_pos he] at h
    cases h
    have : records = [] := List.isEmpty_iff.mp he
    subst this
    exact ⟨rfl, by intro p hp; exact absurd hp (by simp)⟩
  · rw [if_neg he] at h
    exact rowwise_foldlM nested_cols _ df
      (rowwise_applyDates (rowwise_pdDataFrame records)) h

theorem getCol_length_of_rowwise {r : List Rec} {df : DF} {c : String}
    (hR : Rowwise r df) (hcol : hasCol df c = true) :
    (getCol df c).length = r.length := by
  rw [hasCol_eq_isSome] at hcol
  obtain ⟨p, hp⟩ := Option.isSome_iff_exists.mp hcol
  rw [getCol_eq_of_find? hp]
  obtain ⟨f, hf⟩ := hR.2 p (List.mem_of_find?_eq_some hp)
  rw [hf, List.length_map]

/-- Converting a date column neither renames nor touches any column with a
different label. -/
theorem convertDateCol_preserve (df : DF) (c c' : String) (hne : c ≠ c') :
    hasCol (convertDateCol df c') c = hasCol df c ∧
      getCol (convertDateCol df c') c = getCol df c := by
  have hname : ∀ p : String × List Cell,
      ((fun p => if p.1 == c' then (p.1, p.2.map to_datetime_cell) else p) p).1 = p.1 := by
    intro p
    by_cases hp : (p.1 == c') = true
    · simp [hp]
    · simp [hp]
  have hfm := find?_cols_map
    (fun p => if p.1 == c' then (p.1, p.2.map to_datetime_cell) else p) hname c df.cols
  constructor
  · rw [hasCol_eq_isSome, hasCol_eq_isSome]
    unfold convertDateCol
    simp only
    rw [hfm]
    generalize df.cols.find? (fun p => p.1 == c) = o
    cases o <;> rfl
  · unfold convertDateCol getCol
    simp only
    rw [hfm]
    generalize hfind : df.cols.find? (fun p => p.1 == c) = o
    cases o with
    | none => rfl
    | some p =>
      have hsome := List.find?_some (p := fun q : String × List Cell => q.1 == c) hfind
      have hpc : p.1 = c := beq_iff_eq.mp (by simpa using hsome)
      have hf : (p.1 == c') = false := beq_eq_false_iff_ne.mpr (by rw [hpc]; exact hne)
      simp [hf]
      rw [if_neg (by rw [hpc]; exact hne)]

/-- `applyDates` neither renames nor touches a column whose label is not a
date column. -/
theorem applyDates_preserve (df : DF) (c : String) (hc : c ∉ date_cols) :
    hasCol (applyDates df) c = hasCol df c ∧
      getCol (applyDates df) c = getCol df c := by
  unfold applyDates
  have hgen : ∀ (l : List String) (d : DF), (∀ c' ∈ l, c ≠ c') →
      hasCol (l.foldl (fun d c2 => if hasCol d c2 then convertDateCol d c2 else d) d) c
          = hasCol d c ∧
        getCol (l.foldl (fun d c2 => if hasCol d c2 then convertDateCol d c2 else d) d) c
          = getCol d c := by
    intro l
    induction l with
    | nil => exact fun d _ => ⟨rfl, rfl⟩
    | cons c2 l ih =>
      intro d hl
      simp only [List.foldl_cons]
      have hne : c ≠ c2 := hl c2 (by simp)
      have hrest : ∀ c' ∈ l, c ≠ c' := fun c' hc' => hl c' (by simp [hc'])
      by_cases h2 : hasCol d c2 = true
      · rw [if_pos h2]
        obtain ⟨e1, e2⟩ := ih (convertDateCol d c2) hrest
        obtain ⟨f1, f2⟩ := convertDateCol_preserve d c c2 hne
        exact ⟨e1.trans f1, e2.trans f2⟩
      · rw [if_neg h2]
        exact ih d hrest
  refine hgen date_cols df ?_
  intro c' hc' heq
  exact hc (heq ▸ hc')

/-- Expanding one nested column preserves the label and the cells of every
other column already present. -/
theorem expandNested_preserve {r : List Rec} {df df2 : DF} {c c' : String}
    (hR : Rowwise r df) (hne : c ≠ c') (hs : expandNested df c' = some df2)
    (hcol : hasCol df c = true) :
    hasCol df2 c = true ∧ getCol df2 c = getCol df c := by
  unfold expandNested at hs
  by_cases hcol2 : hasCol df c' = true
  · rw [if_pos hcol2] at hs
    rcases hn : json_normalize (getCol df c') with _ | nd
    · rw [hn] at hs
      cases hs
    · rw [hn] at hs
      cases hs
      have hfind : ∃ p, df.cols.find? (fun q => q.1 == c) = some p := by
        rw [hasCol_eq_isSome] at hcol
        exact Option.isSome_iff_exists.mp hcol
      obtain ⟨p, hp⟩ := hfind
      obtain ⟨f, hf⟩ := hR.2 p (List.mem_of_find?_eq_some hp)
      have hdrop : ((dropColAll df c').cols).find? (fun q => q.1 == c) = some p := by
        show (df.cols.filter (fun q => q.1 != c')).find? (fun q => q.1 == c) = some p
        rw [find?_filter_ne c c' hne]
        exact hp
      have happ : (((dropColAll df c').cols) ++ ((prefixCols c' nd).cols)).find?
          (fun q => q.1 == c) = some p :=
        find?_append_some _ _ _ _ hdrop
      have hmax : max (dropColAll df c').nrows (prefixCols c' nd).nrows = r.length := by
        show max df.nrows nd.nrows = r.length
        have h1 : nd.nrows = r.length := by
          rw [(json_normalize_some hn).1, getCol_length_of_rowwise hR hcol2]
        rw [hR.1, h1, Nat.max_self]
      have hpadname : ∀ q : String × List Cell,
          ((fun q => (q.1, padTo (max (dropColAll df c').nrows (prefixCols c' nd).nrows) q.2)) q).1
            = q.1 := fun q => rfl
      have hfind2 : (concatCols (dropColAll df c') (prefixCols c' nd)).cols.find?
          (fun q => q.1 == c)
          = some (p.1, padTo (max (dropColAll df c').nrows (prefixCols c' nd).nrows) p.2) := by
        show ((((dropColAll df c').cols) ++ ((prefixCols c' nd).cols)).map _).find? _ = _
        rw [find?_cols_map _ hpadname c _, happ]
        rfl
      have hlen : p.2.length = max (dropColAll df c').nrows (prefixCols c' nd).nrows := by
        rw [hf, List.length_map, hmax]
      constructor
      · rw [hasCol_eq_isSome, hfind2]
        rfl
      · rw [getCol_eq_of_find? hfind2, getCol_eq_of_find? hp]
        exact padTo_eq_self hlen
  · rw [if_neg hcol2] at hs
    cases hs
    exact ⟨hcol, rfl⟩

/-- Once some nested column to be processed has a cell that is not a dict,
the nested-expansion fold fails. -/
theorem foldlM_none_of_badCol {r : List Rec} {c : String} {cells0 : List Cell}
    (hbad : ¬ (cells0.all isObjCell = true)) :
    ∀ (l : List String) (df : DF), c ∈ l → Rowwise r df →
      hasCol df c = true → getCol df c = cells0 →
      List.foldlM expandNested df l = none := by
  intro l
  induction l with
  | nil =>
    intro df hc
    exact absurd hc (by simp)
  | cons c' l ih =>
    intro df hc hR hcol hget
    by_cases hcc : c' = c
    · subst hcc
      have hx : expandNested df c' = none := by
        unfold expandNested
        rw [if_pos hcol, hget, json_normalize_none hbad]
      rw [List.foldlM_cons, hx]
      rfl
    · have hcl : c ∈ l := by
        rcases List.mem_cons.mp hc with h | h
        · exact absurd h.symm hcc
        · exact h
      rcases hx : expandNested df c' with _ | dfm
      · rw [List.foldlM_cons, hx]
        rfl
      · have hpres := expandNested_preserve hR (fun h => hcc h.symm) hx hcol
        have hR2 := rowwise_expandNested hR hx
        rw [List.foldlM_cons, hx]
        exact ih dfm hcl hR2 hpres.1 (hpres.2.trans hget)

/-- A nested column that is present but holds a missing or non-dict cell
makes the whole `transform` raise. -/
theorem transform_none_of_badNested (records : List Rec) (c : String)
    (hc : c ∈ nested_cols)
    (hcol : hasCol (pdDataFrame records) c = true)
    (hbad : ¬ ((getCol (pdDataFrame records) c).all isObjCell = true)) :
    transform records = none := by
  have hne : records ≠ [] := by
    rintro rfl
    simp [pdDataFrame, keyUnion, hasCol] at hcol
  have hcd : c ∉ date_cols := by
    intro hcd
    have h1 : c = "type" ∨ c = "organization" ∨ c = "person" ∨ c = "user" ∨ c = "company" := by
      simpa [nested_cols] using hc
    have h2 : c = "startDate" ∨ c = "endDate" ∨ c = "doneDate" := by
      simpa [date_cols] using hcd
    rcases h1 with rfl | rfl | rfl | rfl | rfl <;> simp at h2
  obtain ⟨hpres1, hpres2⟩ := applyDates_preserve (pdDataFrame records) c hcd
  unfold transform
  rw [if_neg (by simpa using hne)]
  exact foldlM_none_of_badCol hbad nested_cols _ hc
    (rowwise_applyDates (rowwise_pdDataFrame records))
    (hpres1.trans hcol) (hpres2.trans rfl)

/-! ### The 90-day window split -/

theorem batchesAux_closed (step : Int) (hstep : 0 < step) :
    ∀ (k : Nat) (fuel : Nat) (cs : Int), k ≤ fuel →
      batchesAux (cs + (k : Int) * step) step fuel cs =
        (List.range k).map
          (fun (i : Nat) => (cs + (i : Int) * step, cs + ((i : Int) + 1) * step)) := by
  intro k
  induction k with
  | zero =>
    intro fuel cs _
    cases fuel with
    | zero => rfl
    | succ f =>
      unfold batchesAux
      rw [if_neg (by simp)]
      rfl
  | succ k ih =>
    intro fuel cs hk
    obtain ⟨f, rfl⟩ : ∃ f, fuel = f + 1 := ⟨fuel - 1, by omega⟩
    have hknn : (0 : Int) ≤ (k : Int) := Int.ofNat_nonneg k
    have hcast : ((k + 1 : Nat) : Int) = (k : Int) + 1 := by push_cast; ring
    have hlt : cs < cs + ((k + 1 : Nat) : Int) * step := by
      rw [hcast]
      nlinarith
    have hle : cs + step ≤ cs + ((k + 1 : Nat) : Int) * step := by
      rw [hcast]
      nlinarith
    unfold batchesAux
    rw [if_pos hlt, min_eq_left hle]
    have harg := ih f (cs + step) (by omega)
    rw [show (cs + step) + (k : Int) * step = cs + ((k + 1 : Nat) : Int) * step by
      rw [hcast]; ring] at harg
    rw [harg, List.range_succ_eq_map, List.map_cons, List.map_map]
    congr 1
    · push_cast
      norm_num
    · apply List.map_congr_left
      intro i _
      simp only [Function.comp_apply, Prod.ext_iff]
      push_cast
      constructor <;> ring

/-- Closed form of the 90 fetched sub-windows. -/
theorem windows90_closed (now : Int) :
    windows90 now = (List.range 90).map
      (fun (i : Nat) =>
        (now - 90 * day + (i : Int) * day, now - 90 * day + ((i : Int) + 1) * day)) := by
  unfold windows90
  have hday : (0 : Int) < day := by norm_num [day]
  have h := batchesAux_closed day hday 90 1000 (now - 90 * day) (by norm_num)
  rw [show (now - 90 * day) + ((90 : Nat) : Int) * day = now by push_cast; ring] at h
  exact h

theorem windows90_length (now : Int) : (windows90 now).length = 90 := by
  rw [windows90_closed]
  simp

theorem windows90_get (now : Int) (i : Nat) (hi : i < (windows90 now).length) :
    (windows90 now).get ⟨i, hi⟩ =
      (now - 90 * day + (i : Int) * day, now - 90 * day + ((i : Int) + 1) * day) := by
  have hi90 : i < 90 := by
    rw [windows90_length] at hi
    exact hi
  rw [List.get_eq_getElem, List.getElem_of_eq (windows90_closed now)]
  simp

/-! ### The batch loop -/

def exceptOk (r : Except JVal (List JVal)) : Bool :=
  match r with
  | Except.ok _ => true
  | Except.error _ => false

theorem exceptOk_exists {r : Except JVal (List JVal)} (h : exceptOk r = true) :
    ∃ recs, r = Except.ok recs := by
  cases r with
  | ok recs => exact ⟨recs, rfl⟩
  | error e => exact absurd h (by simp [exceptOk])

theorem runWindows_all_ok (api : Int → Int → HttpResponse) :
    ∀ ws : List (Int × Int), (∀ w ∈ ws, exceptOk (fetch_activities (api w.1 w.2)) = true) →
      ∃ recs, runWindows api ws = (Except.ok recs, ws) := by
  intro ws
  induction ws with
  | nil => exact fun _ => ⟨[], rfl⟩
  | cons w ws ih =>
    intro h
    obtain ⟨recs, hrec⟩ := exceptOk_exists (h w (by simp))
    obtain ⟨rest, hrest⟩ := ih (fun x hx => h x (List.mem_cons_of_mem _ hx))
    refine ⟨recs ++ rest, ?_⟩
    unfold runWindows
    rw [hrec, hrest]

theorem runWindows_head_error (api : Int → Int → HttpResponse) (w : Int × Int)
    (ws : List (Int × Int)) (e : JVal)
    (h : fetch_activities (api w.1 w.2) = Except.error e) :
    runWindows api (w :: ws) = (Except.error e, [w]) := by
  unfold runWindows
  rw [h]

theorem runWindows_append_error (api : Int → Int → HttpResponse) :
    ∀ (pre ws2 : List (Int × Int)) (e : JVal) (calls : List (Int × Int)),
      (∀ w ∈ pre, exceptOk (fetch_activities (api w.1 w.2)) = true) →
      runWindows api ws2 = (Except.error e, calls) →
      runWindows api (pre ++ ws2) = (Except.error e, pre ++ calls) := by
  intro pre
  induction pre with
  | nil =>
    intro ws2 e calls _ h
    simpa using h
  | cons w pre ih =>
    intro ws2 e calls hok h
    obtain ⟨recs, hrec⟩ := exceptOk_exists (hok w (by simp))
    have hrest := ih ws2 e calls (fun x hx => hok x (List.mem_cons_of_mem _ hx)) h
    show runWindows api (w :: (pre ++ ws2)) = _
    unfold runWindows
    rw [hrec, hrest]
    rfl

/-- A fetch failure in the batch loop is surfaced verbatim as the 500
payload, with the fetch-call trace unchanged. -/
theorem adsim_surfaces_error (now : Int) (api : Int → Int → HttpResponse)
    (bq : DF → String → Option LoadJob) (e : JVal) (calls : List (Int × Int))
    (h : runWindows api (windows90 now) = (Except.error e, calls)) :
    adsim_activity_etl now api bq = (HandlerResp.error500 e, calls) := by
  unfold adsim_activity_etl
  rw [h]

/-! ### Claim theorems -/

theorem loadLines_error_string :
    ∀ (ls : List (List Char)) (e : JVal), loadLines ls = Except.error e → ∃ m, e = JVal.s m := by
  intro ls
  induction ls with
  | nil =>
    intro e h
    exact absurd h (by simp [loadLines])
  | cons l ls ih =>
    intro e h
    unfold loadLines at h
    rcases hv : jloads l with _ | v
    · rw [hv] at h
      cases h
      exact ⟨jsonDecodeMsg l, rfl⟩
    · rw [hv] at h
      cases hr : loadLines ls with
      | error e2 =>
        rw [hr] at h
        cases h
        exact ih _ hr
      | ok vs =>
        rw [hr] at h
        cases h

/-- What it means for an error payload to carry an HTTP status code, the
requested URL and the raw response body, in the shape the non-200 branch
of `fetch_activities` produces. -/
def payloadCarries (code : Int) (url body : String) (p : JVal) : Prop :=
  ∃ kvs : JObj, p = JVal.obj kvs ∧
    jobjLookup "response" kvs = some (JVal.s body) ∧
    ∃ m : String, jobjLookup "message" kvs = some (JVal.s m) ∧
      (∃ u v : List Char, m.data = u ++ (toString code).data ++ v) ∧
      (∃ u v : List Char, m.data = u ++ url.data ++ v)

/-- C6: on a non-200 response `fetch_activities` raises a `ValueError`
whose dict payload holds the status "error", a message containing the
status code and the requested URL verbatim, and the raw response body; on
a 200 response no dict-payload error is raised (a parse failure raises a
bare message string instead). -/
theorem claim_C6 (resp : HttpResponse) :
    (resp.status_code ≠ 200 →
      fetch_activities resp = Except.error (fetchErrorPayload resp) ∧
      payloadCarries resp.status_code resp.url resp.text (fetchErrorPayload resp)) ∧
    (resp.status_code = 200 →
      ∀ kvs : JObj, fetch_activities resp ≠ Except.error (JVal.obj kvs)) := by
  constructor
  · intro h
    constructor
    · unfold fetch_activities
      rw [if_pos h]
    · refine ⟨recOf
        [("status", JVal.s "error"),
         ("message", JVal.s (toString resp.status_code ++ " Client Error for URL: " ++ resp.url)),
         ("response", JVal.s resp.text)], rfl, rfl,
        toString resp.status_code ++ " Client Error for URL: " ++ resp.url, rfl, ?_, ?_⟩
      · exact ⟨[], (" Client Error for URL: " ++ resp.url).data,
          by simp [String.data_append, List.append_assoc]⟩
      · exact ⟨(toString resp.status_code ++ " Client Error for URL: ").data, [],
          by simp [String.data_append, List.append_assoc]⟩
  · intro h kvs hcontra
    rw [fetch_200 resp h] at hcontra
    obtain ⟨m, hm⟩ := loadLines_error_string _ _ hcontra
    exact JVal.noConfusion hm

theorem claim_C6_witness :
    (fetch_activities ⟨404, "https://api.adsim.co/x", "no such page"⟩ =
      Except.error (fetchErrorPayload ⟨404, "https://api.adsim.co/x", "no such page"⟩) ∧
      payloadCarries 404 "https://api.adsim.co/x" "no such page"
        (fetchErrorPayload ⟨404, "https://api.adsim.co/x", "no such page"⟩)) ∧
    (∀ kvs : JObj, fetch_activities ⟨200, "U", "7"⟩ ≠ Except.error (JVal.obj kvs)) :=
  ⟨(claim_C6 ⟨404, "https://api.adsim.co/x", "no such page"⟩).1 (by decide),
   (claim_C6 ⟨200, "U", "7"⟩).2 rfl⟩

/-- C10: a 200 response whose body is empty or whitespace-only yields an
empty record list, not a parse error. -/
theorem claim_C10 (resp : HttpResponse) (h200 : resp.status_code = 200)
    (hws : resp.text.data.all isWs = true) :
    fetch_activities resp = Except.ok [] := by
  rw [fetch_200 resp h200]
  have h1 : pyStrip resp.text.data = [] := by
    unfold pyStrip
    rw [lstrip_of_all hws]
    rfl
  rw [h1]
  rfl

theorem claim_C10_witness :
    fetch_activities ⟨200, "U", " \n  \n"⟩ = Except.ok [] :=
  claim_C10 ⟨200, "U", " \n  \n"⟩ rfl (by decide)

/-- C9: on an empty dataset `load_to_bigquery` returns the no-data sentinel
without consulting the warehouse client (its result is the same for every
client oracle); on a non-empty dataset it runs the bulk load and reports
the row count the destination returned, embedded in the summary string. -/
theorem claim_C9 (df : DF) (t : String) (bq bq2 : DF → String → Option LoadJob) :
    (dfEmpty df = true →
      load_to_bigquery bq df t = some "Sem dados para carregar" ∧
      load_to_bigquery bq df t = load_to_bigquery bq2 df t) ∧
    (dfEmpty df = false → ∀ job : LoadJob, bq df t = some job →
      load_to_bigquery bq df t =
        some ("Carregado " ++ toString job.output_rows ++ " linhas na tabela " ++ t) ∧
      ∃ u v : List Char,
        ("Carregado " ++ toString job.output_rows ++ " linhas na tabela " ++ t).data =
          u ++ (toString job.output_rows).data ++ v) := by
  constructor
  · intro he
    constructor
    · unfold load_to_bigquery
      rw [if_pos he]
    · unfold load_to_bigquery
      rw [if_pos he, if_pos he]
  · intro he job hj
    have hne : ¬ (dfEmpty df = true) := by
      rw [he]
      exact Bool.false_ne_true
    constructor
    · unfold load_to_bigquery
      rw [if_neg hne, hj]
    · exact ⟨"Carregado ".data, (" linhas na tabela " ++ t).data,
        by simp [String.data_append, List.append_assoc]⟩

theorem claim_C9_witness :
    (load_to_bigquery (fun _ _ => some ⟨3⟩) ⟨0, []⟩ "tb" = some "Sem dados para carregar" ∧
      load_to_bigquery (fun _ _ => some ⟨3⟩) ⟨0, []⟩ "tb" =
        load_to_bigquery (fun _ _ => none) ⟨0, []⟩ "tb") ∧
    load_to_bigquery (fun _ _ => some ⟨3⟩) ⟨1, [("a", [none])]⟩ "tb" =
      some ("Carregado " ++ toString (3 : Nat) ++ " linhas na tabela " ++ "tb") :=
  ⟨(claim_C9 ⟨0, []⟩ "tb" (fun _ _ => some ⟨3⟩) (fun _ _ => none)).1 rfl,
   ((claim_C9 ⟨1, [("a", [none])]⟩ "tb" (fun _ _ => some ⟨3⟩) (fun _ _ => none)).2 rfl ⟨3⟩ rfl).1⟩

/-- C3: whenever `transform` returns a dataset it has exactly one row per
input record — the row counter and every column's cell count equal the
number of records, whatever columns were converted or expanded. -/
theorem claim_C3 (records : List Rec) (df : DF) (h : transform records = some df) :
    df.nrows = records.length ∧ ∀ p ∈ df.cols, p.2.length = records.length := by
  obtain ⟨h1, h2⟩ := transform_rowwise h
  refine ⟨h1, ?_⟩
  intro p hp
  obtain ⟨f, hf⟩ := h2 p hp
  rw [hf, List.length_map]

theorem claim_C3_witness :
    (⟨2, [("startDate", [some (JVal.ts 20240105), none]),
         ("x", [some (JVal.i 1), some (JVal.i 2)])]⟩ : DF).nrows =
      [recOf [("startDate", JVal.s "2024-01-05T10:00:00Z"), ("x", JVal.i 1)],
       recOf [("x", JVal.i 2)]].length ∧
    ∀ p ∈ (⟨2, [("startDate", [some (JVal.ts 20240105), none]),
         ("x", [some (JVal.i 1), some (JVal.i 2)])]⟩ : DF).cols,
      p.2.length =
        [recOf [("startDate", JVal.s "2024-01-05T10:00:00Z"), ("x", JVal.i 1)],
         recOf [("x", JVal.i 2)]].length :=
  claim_C3 _ _ (by decide)

/-- C7: a record with `organization = {"id": 7, "name": "Acme"}` transforms
into the columns `organization_id = 7` and `organization_name = "Acme"`,
and the `organization` column itself is gone. -/
theorem claim_C7 :
    ∃ df : DF,
      transform [recOf [("organization",
          JVal.obj (recOf [("id", JVal.i 7), ("name", JVal.s "Acme")]))]] = some df ∧
      getCol df "organization_id" = [some (JVal.i 7)] ∧
      getCol df "organization_name" = [some (JVal.s "Acme")] ∧
      hasCol df "organization" = false ∧
      df.nrows = 1 :=
  ⟨⟨1, [("organization_id", [some (JVal.i 7)]),
        ("organization_name", [some (JVal.s "Acme")])]⟩, by decide⟩

/-- C1 counterexample: with `organization` present in the first record and
absent from the second, `transform` raises (`pd.json_normalize` over a
column containing NaN) instead of producing null-filled expanded columns. -/
theorem claim_C1_counterexample :
    transform
      [recOf [("organization", JVal.obj (recOf [("id", JVal.i 7), ("name", JVal.s "Acme")]))],
       recOf [("subject", JVal.s "call")]] = none := by
  decide

/-- C1 (amended): if a nested column is present but some row's value for it
is missing or not an object, `transform` fails with an error instead of
yielding nulls; whenever `transform` does return a dataset, every column's
cell in row `i` is a function of input record `i` alone, so no row's
expanded values can shift to a different row. -/
theorem claim_C1 :
    (∀ (records : List Rec) (c : String), c ∈ nested_cols →
      hasCol (pdDataFrame records) c = true →
      ¬ ((getCol (pdDataFrame records) c).all isObjCell = true) →
      transform records = none) ∧
    (∀ (records : List Rec) (df : DF), transform records = some df →
      ∀ p ∈ df.cols, ∃ f : Rec → Cell, p.2 = records.map f) :=
  ⟨transform_none_of_badNested,
   fun _ _ h => (transform_rowwise h).2⟩

theorem claim_C1_witness :
    transform [recOf [("person", JVal.obj (recOf [("id", JVal.i 3)]))], JObj.nil] = none ∧
    (∀ p ∈ (⟨1, [("organization_id", [some (JVal.i 7)]),
          ("organization_name", [some (JVal.s "Acme")])]⟩ : DF).cols,
      ∃ f : Rec → Cell,
        p.2 = [recOf [("organization",
          JVal.obj (recOf [("id", JVal.i 7), ("name", JVal.s "Acme")]))]].map f) :=
  ⟨claim_C1.1 [recOf [("person", JVal.obj (recOf [("id", JVal.i 3)]))], JObj.nil] "person"
      (by decide) (by decide) (by decide),
   claim_C1.2 [recOf [("organization",
      JVal.obj (recOf [("id", JVal.i 7), ("name", JVal.s "Acme")]))]] _ (by decide)⟩

/-- C5: a 200 response whose body is well-formed NDJSON (every non-empty
line of the body parses) yields exactly one record per non-empty line, each
the JSON parse of its line, in the original line order. -/
theorem claim_C5 (resp : HttpResponse) (h200 : resp.status_code = 200)
    (_hbody : resp.text.data ≠ [])
    (hnd : ∀ l ∈ pyLines resp.text.data, l ≠ [] → jloads l ≠ none) :
    ∃ recs, fetch_activities resp = Except.ok recs ∧
      recs.map some = (truthyLines resp.text.data).map jloads :=
  fetch_ok_of_goodBody resp h200 hnd

theorem claim_C5_witness :
    ∃ recs, fetch_activities ⟨200, "U", "1\n\n2"⟩ = Except.ok recs ∧
      recs.map some = (truthyLines (String.data "1\n\n2")).map jloads :=
  claim_C5 ⟨200, "U", "1\n\n2"⟩ rfl (by decide) (by decide)

/-- C2 counterexample: on a 200 response whose body is the malformed line
"notjson", the handler does return a 500, but its payload is the bare
`JSONDecodeError` message string — it is not an object and carries neither
the status code, the URL, nor the raw body. -/
theorem claim_C2_counterexample :
    (adsim_activity_etl 0 (fun _ _ => ⟨200, "U", "notjson"⟩) (fun _ _ => some ⟨0⟩)).1 =
      HandlerResp.error500 (JVal.s (jsonDecodeMsg (String.data "notjson"))) ∧
    ¬ payloadCarries 200 "U" "notjson" (JVal.s (jsonDecodeMsg (String.data "notjson"))) := by
  constructor
  · rfl
  · rintro ⟨kvs, hk, _⟩
    exact JVal.noConfusion hk

/-- C2 (amended): a malformed non-empty line among the lines the code
parses fails the whole fetch — no records are returned and the raised
`ValueError` payload is the parse-error message string; any fetch failure
in the batch loop is surfaced by the handler as a 500 whose body is the
raised payload (for a parse error, that bare string rather than an object
with status code, URL and body). -/
theorem claim_C2 :
    (∀ resp : HttpResponse, resp.status_code = 200 →
      (∃ l ∈ truthyLines (pyStrip resp.text.data), jloads l = none) →
      ∃ m, fetch_activities resp = Except.error (JVal.s m)) ∧
    (∀ (now : Int) (api : Int → Int → HttpResponse) (bq : DF → String → Option LoadJob)
        (e : JVal) (calls : List (Int × Int)),
      runWindows api (windows90 now) = (Except.error e, calls) →
      adsim_activity_etl now api bq = (HandlerResp.error500 e, calls)) :=
  ⟨fetch_error_of_badLine, adsim_surfaces_error⟩

theorem claim_C2_witness :
    (∃ m, fetch_activities ⟨200, "U", "notjson"⟩ = Except.error (JVal.s m)) ∧
    adsim_activity_etl 0 (fun _ _ => ⟨200, "U", "notjson"⟩) (fun _ _ => some ⟨0⟩) =
      (HandlerResp.error500 (JVal.s (jsonDecodeMsg (String.data "notjson"))),
        [(-7776000000000, -7689600000000)]) :=
  ⟨claim_C2.1 ⟨200, "U", "notjson"⟩ rfl (by decide),
   claim_C2.2 0 (fun _ _ => ⟨200, "U", "notjson"⟩) (fun _ _ => some ⟨0⟩)
     (JVal.s (jsonDecodeMsg (String.data "notjson"))) [(-7776000000000, -7689600000000)]
     rfl⟩

/-- C8: if the k-th sub-window fetch fails after k successful ones, the
handler returns a 500 carrying the fetch payload, the fetched windows are
exactly the first k+1 (none after the k-th is attempted), and the outcome
is independent of the warehouse oracle — the accumulated records are never
transformed or loaded. -/
theorem claim_C8 (now : Int) (api : Int → Int → HttpResponse)
    (bq bq2 : DF → String → Option LoadJob) (k : Nat) (e : JVal)
    (hk : k < (windows90 now).length)
    (hok : ∀ w ∈ (windows90 now).take k, exceptOk (fetch_activities (api w.1 w.2)) = true)
    (herr : fetch_activities
        (api ((windows90 now).get ⟨k, hk⟩).1 ((windows90 now).get ⟨k, hk⟩).2) =
      Except.error e) :
    adsim_activity_etl now api bq = (HandlerResp.error500 e, (windows90 now).take (k + 1)) ∧
    adsim_activity_etl now api bq = adsim_activity_etl now api bq2 := by
  have hsplit : windows90 now =
      (windows90 now).take k ++ (windows90 now).get ⟨k, hk⟩ :: (windows90 now).drop (k + 1) := by
    conv_lhs => rw [← List.take_append_drop k (windows90 now)]
    congr 1
    rw [List.get_eq_getElem]
    exact List.drop_eq_getElem_cons hk
  have hinner : runWindows api
      ((windows90 now).get ⟨k, hk⟩ :: (windows90 now).drop (k + 1)) =
      (Except.error e, [(windows90 now).get ⟨k, hk⟩]) :=
    runWindows_head_error api _ _ e herr
  have hrun : runWindows api (windows90 now) =
      (Except.error e, (windows90 now).take k ++ [(windows90 now).get ⟨k, hk⟩]) := by
    conv_lhs => rw [hsplit]
    exact runWindows_append_error api _ _ e _ hok hinner
  have htake : (windows90 now).take k ++ [(windows90 now).get ⟨k, hk⟩] =
      (windows90 now).take (k + 1) := by
    rw [List.take_succ, List.getElem?_eq_getElem hk]
    rfl
  rw [htake] at hrun
  exact ⟨adsim_surfaces_error now api bq e _ hrun,
    (adsim_surfaces_error now api bq e _ hrun).trans
      (adsim_surfaces_error now api bq2 e _ hrun).symm⟩

theorem claim_C8_witness :
    adsim_activity_etl 0 (fun _ _ => ⟨403, "U", "forbidden"⟩) (fun _ _ => some ⟨0⟩) =
      (HandlerResp.error500 (fetchErrorPayload ⟨403, "U", "forbidden"⟩),
        (windows90 0).take 1) ∧
    adsim_activity_etl 0 (fun _ _ => ⟨403, "U", "forbidden"⟩) (fun _ _ => some ⟨0⟩) =
      adsim_activity_etl 0 (fun _ _ => ⟨403, "U", "forbidden"⟩) (fun _ _ => none) :=
  claim_C8 0 (fun _ _ => ⟨403, "U", "forbidden"⟩) (fun _ _ => some ⟨0⟩) (fun _ _ => none)
    0 (fetchErrorPayload ⟨403, "U", "forbidden"⟩) (by decide) (by decide) rfl

/-- C4: the 90-day lookback is split into exactly 90 one-day sub-windows
`[s + i*day, s + (i+1)*day)` that are contiguous, non-overlapping, start at
`now - 90 days`, end at `now`, and cover every instant in between; when
every batch fetch succeeds, the handler fetches each sub-window exactly
once, in chronological order. -/
theorem claim_C4 (now : Int) (api : Int → Int → HttpResponse)
    (bq : DF → String → Option LoadJob) :
    (windows90 now).length = 90 ∧
    (∀ (i : Nat) (hi : i < (windows90 now).length),
      (windows90 now).get ⟨i, hi⟩ =
        (now - 90 * day + (i : Int) * day, now - 90 * day + ((i : Int) + 1) * day)) ∧
    (∀ (i : Nat) (hi : i < (windows90 now).length),
      ((windows90 now).get ⟨i, hi⟩).2 = ((windows90 now).get ⟨i, hi⟩).1 + day) ∧
    (∀ (i : Nat) (hi1 : i + 1 < (windows90 now).length),
      ((windows90 now).get ⟨i, Nat.lt_of_succ_lt hi1⟩).2 =
        ((windows90 now).get ⟨i + 1, hi1⟩).1) ∧
    (∀ h0 : 0 < (windows90 now).length,
      ((windows90 now).get ⟨0, h0⟩).1 = now - 90 * day) ∧
    (∀ h89 : 89 < (windows90 now).length,
      ((windows90 now).get ⟨89, h89⟩).2 = now) ∧
    (∀ t : Int, now - 90 * day ≤ t → t < now →
      ∃ (i : Nat) (hi : i < (windows90 now).length),
        ((windows90 now).get ⟨i, hi⟩).1 ≤ t ∧ t < ((windows90 now).get ⟨i, hi⟩).2) ∧
    (∀ (i j : Nat) (hi : i < (windows90 now).length) (hj : j < (windows90 now).length),
      i < j → ((windows90 now).get ⟨i, hi⟩).2 ≤ ((windows90 now).get ⟨j, hj⟩).1) ∧
    ((∀ w ∈ windows90 now, exceptOk (fetch_activities (api w.1 w.2)) = true) →
      (adsim_activity_etl now api bq).2 = windows90 now) := by
  have hday : (0 : Int) < day := by norm_num [day]
  refine ⟨windows90_length now, windows90_get now, ?_, ?_, ?_, ?_, ?_, ?_, ?_⟩
  · intro i hi
    rw [windows90_get now i hi]
    push_cast
    ring
  · intro i hi1
    rw [windows90_get now i (Nat.lt_of_succ_lt hi1), windows90_get now (i + 1) hi1]
    push_cast
    ring
  · intro h0
    rw [windows90_get now 0 h0]
    norm_num
  · intro h89
    rw [windows90_get now 89 h89]
    norm_num
  · intro t h1 h2
    have hu0 : 0 ≤ t - (now - 90 * day) := by omega
    have hid := Int.ediv_add_emod (t - (now - 90 * day)) day
    have hm0 := Int.emod_nonneg (t - (now - 90 * day)) (ne_of_gt hday)
    have hml := Int.emod_lt_of_pos (t - (now - 90 * day)) hday
    set q := (t - (now - 90 * day)) / day with hq
    have hq0 : 0 ≤ q := Int.ediv_nonneg hu0 (le_of_lt hday)
    have hlow : day * q ≤ t - (now - 90 * day) := by omega
    have hhigh : t - (now - 90 * day) < day * (q + 1) := by
      have hdq : day * (q + 1) = day * q + day := by ring
      omega
    have hq90 : q < 90 := by
      by_contra hge
      push_neg at hge
      have : day * 90 ≤ day * q := by
        apply mul_le_mul_of_nonneg_left hge (le_of_lt hday)
      have hlt : t - (now - 90 * day) < 90 * day := by omega
      have : (90 : Int) * day = day * 90 := by ring
      omega
    refine ⟨q.toNat, by rw [windows90_length]; omega, ?_⟩
    rw [windows90_get now q.toNat (by rw [windows90_length]; omega)]
    have hcast : ((q.toNat : Nat) : Int) = q := Int.toNat_of_nonneg hq0
    rw [hcast]
    constructor
    · have : q * day = day * q := by ring
      omega
    · have : (q + 1) * day = day * (q + 1) := by ring
      omega
  · intro i j hi hj hij
    rw [windows90_get now i hi, windows90_get now j hj]
    have hij2 : ((i : Int) + 1) ≤ (j : Int) := by exact_mod_cast hij
    have := mul_le_mul_of_nonneg_right hij2 (le_of_lt hday)
    omega
  · intro hall
    obtain ⟨recs, hr⟩ := runWindows_all_ok api (windows90 now) hall
    unfold adsim_activity_etl
    rw [hr]
    show (match recs.mapM asRec with
      | none => (HandlerResp.unhandled, windows90 now)
      | some recs2 =>
        match transform recs2 with
        | none => (HandlerResp.unhandled, windows90 now)
        | some df =>
          match load_to_bigquery bq df with
          | none => (HandlerResp.unhandled, windows90 now)
          | some msg => (HandlerResp.success df.nrows msg, windows90 now)).2 = windows90 now
    rcases recs.mapM asRec with _ | recs2
    · rfl
    · show (match transform recs2 with
        | none => (HandlerResp.unhandled, windows90 now)
        | some df =>
          match load_to_bigquery bq df with
          | none => (HandlerResp.unhandled, windows90 now)
          | some msg => (HandlerResp.success df.nrows msg, windows90 now)).2 = windows90 now
      rcases transform recs2 with _ | df
      · rfl
      · show (match load_to_bigquery bq df with
          | none => (HandlerResp.unhandled, windows90 now)
          | some msg => (HandlerResp.success df.nrows msg, windows90 now)).2 = windows90 now
        rcases load_to_bigquery bq df with _ | msg
        · rfl
        · rfl

theorem claim_C4_witness :
    (windows90 0).length = 90 ∧
    (∃ (i : Nat) (hi : i < (windows90 0).length),
      ((windows90 0).get ⟨i, hi⟩).1 ≤ -1 ∧ (-1 : Int) < ((windows90 0).get ⟨i, hi⟩).2) ∧
    (adsim_activity_etl 0 (fun _ _ => ⟨200, "U", ""⟩) (fun _ _ => some ⟨0⟩)).2 =
      windows90 0 :=
  ⟨(claim_C4 0 (fun _ _ => ⟨200, "U", ""⟩) (fun _ _ => some ⟨0⟩)).1,
   (claim_C4 0 (fun _ _ => ⟨200, "U", ""⟩) (fun _ _ => some ⟨0⟩)).2.2.2.2.2.2.1
     (-1) (by decide) (by decide),
   (claim_C4 0 (fun _ _ => ⟨200, "U", ""⟩) (fun _ _ => some ⟨0⟩)).2.2.2.2.2.2.2.2
     (by decide)⟩
